import Mathlib

/-!
# Verification of the Sindhi corpus preprocessing scripts

Shallow embedding of the text-processing core of the repository
(`preprocess_sindhi.py`, `chatgpt.py`, `analyze_sindhi_corpus.py`).
Text is modelled as `List Char` (Unicode codepoints, matching Python's
`str` after decoding).  Python's `re` character classes, `str.split`,
`str.strip`, `str.splitlines` and `collections.Counter` are embedded by
their documented semantics on codepoint sequences.  All definitions are
structurally recursive so that concrete runs evaluate inside the kernel.
-/

namespace Sindhi

/-- Text is a list of Unicode codepoints, as in a Python `str`. -/
abbrev Str := List Char

/-- Python's whitespace set: the codepoints matched by `\s` in a `str`
pattern and treated as whitespace by `str.split()` / `str.strip()`
(ASCII whitespace, the separator controls 1C–1F, NEL, NBSP, and the
Unicode space separators). -/
def pyIsSpace (c : Char) : Bool :=
  let n := c.toNat
  (0x09 ≤ n && n ≤ 0x0D) || (0x1C ≤ n && n ≤ 0x1F) || n = 0x20 ||
  n = 0x85 || n = 0xA0 || n = 0x1680 || (0x2000 ≤ n && n ≤ 0x200A) ||
  n = 0x2028 || n = 0x2029 || n = 0x202F || n = 0x205F || n = 0x3000

/-- Codepoints of the character class in `chatgpt.py`'s
`ARABIC_SINDHI_RE` (the Arabic, Arabic Extended-A and Arabic Extended-B
blocks). -/
def arabicChar (c : Char) : Bool :=
  let n := c.toNat
  (0x0600 ≤ n && n ≤ 0x06FF) || (0x0750 ≤ n && n ≤ 0x077F) ||
  (0x08A0 ≤ n && n ≤ 0x08FF)

/-- The character class of the `word_pattern` that
`analyze_sindhi_corpus.py` builds in `extract_sindhi_words`.  The
source slices a raw string, `self.sindhi_chars[2:-1]`, which cuts into
the escape text of the first range: the rebuilt class contains the
literals `u`, `0`, `6`, `0` and the ranges U+0030–U+06FF,
U+0750–U+077F, U+08A0–U+08FF, U+FB50–U+FDFF, U+FE70–U+FEFF. -/
def sindhiChar (c : Char) : Bool :=
  let n := c.toNat
  (0x30 ≤ n && n ≤ 0x6FF) || (0x750 ≤ n && n ≤ 0x77F) ||
  (0x8A0 ≤ n && n ≤ 0x8FF) || (0xFB50 ≤ n && n ≤ 0xFDFF) ||
  (0xFE70 ≤ n && n ≤ 0xFEFF)

/-- The Arabic full stop ۔ (U+06D4), the sentence terminator. -/
def fullStop : Char := Char.ofNat 0x06D4

/-- The Arabic question mark ؟ (U+061F). -/
def questionMark : Char := Char.ofNat 0x061F

/-- `preprocess_sindhi.py` line 47: the class `allowed_pattern`
(the three Arabic blocks, `\s`, ۔ and ؟). -/
def allowedChar (c : Char) : Bool :=
  arabicChar c || pyIsSpace c || c = fullStop || c = questionMark

/-- The terminator class `[۔؟!]` used by `re.split` in
`preprocess_sindhi.py` line 57 and `analyze_sindhi_corpus.py`. -/
def isTerm (c : Char) : Bool :=
  c = fullStop || c = questionMark || c = '!'

/-- `preprocess_sindhi.py` line 50: every character not matching
`allowed_pattern` is replaced by a single space, all others kept. -/
def scriptFilter (t : Str) : Str :=
  t.map (fun c => if allowedChar c then c else ' ')

/-- State machine for `re.sub(r"\s+", " ", ·)`: the first whitespace
character of a run emits one space, further run characters are dropped.
The flag records whether the previous character was whitespace. -/
def collapseWsAux : Str → Bool → Str
  | [], _ => []
  | c :: cs, inRun =>
    if pyIsSpace c then
      if inRun then collapseWsAux cs true else ' ' :: collapseWsAux cs true
    else c :: collapseWsAux cs false

/-- Collapse each maximal run of whitespace to a single ASCII space:
the effect of `re.sub(r"\s+", " ", t)` on the codepoint sequence. -/
def collapseWs (t : Str) : Str := collapseWsAux t false

/-- Remove leading Python whitespace. -/
def stripLeading (l : Str) : Str := l.dropWhile pyIsSpace

/-- Remove trailing Python whitespace. -/
def stripTrailing (l : Str) : Str := (l.reverse.dropWhile pyIsSpace).reverse

/-- Python `str.strip()`: drop leading and trailing whitespace. -/
def pyStrip (l : Str) : Str := stripTrailing (stripLeading l)

/-- `preprocess_sindhi.py` line 53:
`clean_text = re.sub(r"\s+", " ", clean_text).strip()`. -/
def normWs (t : Str) : Str := pyStrip (collapseWs t)

/-- `re.split` on a single-character class: one (possibly empty)
fragment between every two occurrences of the class, as Python
produces it. -/
def splitTerm : Str → List Str
  | [] => [[]]
  | c :: cs =>
    if isTerm c then [] :: splitTerm cs
    else
      match splitTerm cs with
      | [] => [[c]]
      | r :: rs => (c :: r) :: rs

/-- `preprocess_sindhi.py` lines 50–58 applied to NFC-normalized input:
script filtering, whitespace normalization, terminator split, then
trimming and dropping blank fragments.  (The `unicodedata.normalize`
call on the raw file contents is external; the embedding takes the
already-normalized text.) -/
def sentencesOf (t : Str) : List Str :=
  ((splitTerm (normWs (scriptFilter t))).map pyStrip).filter (fun s => !s.isEmpty)

/-- Accumulator pass for `findRuns`: `acc` is the reversed current run
of matching characters. -/
def runsAux (p : Char → Bool) : Str → Str → List Str
  | [], acc => if acc.isEmpty then [] else [acc.reverse]
  | c :: cs, acc =>
    if p c then runsAux p cs (c :: acc)
    else if acc.isEmpty then runsAux p cs []
    else acc.reverse :: runsAux p cs []

/-- Maximal runs of characters satisfying `p`: the semantics of
`re.findall` for a pattern `[class]+`. -/
def findRuns (p : Char → Bool) (l : Str) : List Str := runsAux p l []

/-- Python `str.split()` with no arguments: maximal runs of
non-whitespace characters. -/
def pySplit (s : Str) : List Str := findRuns (fun c => !pyIsSpace c) s

/-- `chatgpt.py` `extract_words`: `ARABIC_SINDHI_RE.findall(text)`. -/
def extract_words (t : Str) : List Str := findRuns arabicChar t

/-- `analyze_sindhi_corpus.py` `extract_sindhi_words` applied to
NFC-normalized input (the method normalizes first via `unicodedata`,
which is external): `re.findall` of runs of the sliced `word_pattern`
(see `sindhiChar`), then dropping tokens of length ≤ 1. -/
def extract_sindhi_words (t : Str) : List Str :=
  (findRuns sindhiChar t).filter (fun w => 1 < w.length)

/-- `" ".join(words)`. -/
def joinSpace : List Str → Str
  | [] => []
  | [w] => w
  | w :: ws => w ++ ' ' :: joinSpace ws

/-- Fuel-driven form of the slice loop
`words[i:i+m] for i in range(0, len(words), m)`; the fuel is the list
length, which bounds the number of slices whenever `0 < m`. -/
def chunksOfAux (m : Nat) : Nat → List α → List (List α)
  | _, [] => []
  | 0, l => [l]
  | fuel + 1, l => l.take m :: chunksOfAux m fuel (l.drop m)

/-- Consecutive slices `words[i:i+m]` for `i in range(0, len(words), m)`
(`preprocess_sindhi.py` lines 70–72).  The source only reaches this
with `m = 10 > 0` (`range` would raise on step 0). -/
def chunksOf (m : Nat) (l : List α) : List (List α) :=
  chunksOfAux m l.length l

/-- `preprocess_sindhi.py` `split_long_sentences`: sentences with at
most `maxWords` whitespace words are kept as-is, longer ones are
re-chunked into windows of `maxWords` words joined by single spaces. -/
def split_long_sentences (maxWords : Nat) (sentences : List Str) : List Str :=
  sentences.flatMap (fun sentence =>
    let words := pySplit sentence
    if words.length ≤ maxWords then [sentence]
    else (chunksOf maxWords words).map joinSpace)

/-- `preprocess_sindhi.py` `remove_stopwords`: whitespace-split, keep
words not in the stopword set, rejoin with single spaces. -/
def remove_stopwords (stopwords : List Str) (sentence : Str) : Str :=
  joinSpace ((pySplit sentence).filter (fun w => !stopwords.contains w))

/-- `preprocess_sindhi.py` lines 90–93: stopword removal over all
sentences, then dropping sentences that became blank. -/
def processedOutput (stopwords : List Str) (sentences : List Str) : List Str :=
  (sentences.map (remove_stopwords stopwords)).filter
    (fun s => !(pyStrip s).isEmpty)

/-- Distinct tokens in first-encountered order: the key order of a
Python `collections.Counter` (a dict, which preserves the order of
first insertion). -/
def firstSeen (toks : List Str) : List Str :=
  toks.foldl (fun acc t => if t ∈ acc then acc else acc ++ [t]) []

/-- The items of `Counter(toks)`: each distinct token in first-seen
order, paired with its number of occurrences. -/
def counterItems (toks : List Str) : List (Str × Nat) :=
  (firstSeen toks).map (fun t => (t, toks.count t))

/-- Insert an item into a list, before the first entry whose count is
not larger: the placement a stable descending sort gives an element
that precedes the rest in the original order. -/
def insertDesc (x : Str × Nat) : List (Str × Nat) → List (Str × Nat)
  | [] => [x]
  | y :: ys => if x.2 < y.2 then y :: insertDesc x ys else x :: y :: ys

/-- Stable sort by descending count, the documented behavior of
`Counter.most_common` (`sorted(..., key=count, reverse=True)`, a stable
sort, over items in first-insertion order). -/
def sortDesc : List (Str × Nat) → List (Str × Nat)
  | [] => []
  | x :: xs => insertDesc x (sortDesc xs)

/-- `Counter(toks).most_common(n)`: the first `n` entries of the stable
descending sort of the counter's items. -/
def mostCommon (toks : List Str) (n : Nat) : List (Str × Nat) :=
  (sortDesc (counterItems toks)).take n

/-- Python division, which raises `ZeroDivisionError` on a zero
denominator, embedded as `none`; floats are modelled by rationals. -/
def pyDiv (a b : ℚ) : Option ℚ := if b = 0 then none else some (a / b)

/-- The line-boundary characters of Python `str.splitlines`. -/
def isLineBreak (c : Char) : Bool :=
  let n := c.toNat
  n = 0x0A || n = 0x0D || n = 0x0B || n = 0x0C ||
  (0x1C ≤ n && n ≤ 0x1E) || n = 0x85 || n = 0x2028 || n = 0x2029

/-- Python `str.splitlines()`: split at line boundaries, treating
`\r\n` as one boundary, with no trailing empty line. -/
def pySplitlines : Str → List Str
  | [] => []
  | [c] => if isLineBreak c then [[]] else [[c]]
  | c :: d :: ds =>
    if isLineBreak c then
      if c = '\r' && d = '\n' then [] :: pySplitlines ds
      else [] :: pySplitlines (d :: ds)
    else
      match pySplitlines (d :: ds) with
      | [] => [[c]]
      | r :: rs => (c :: r) :: rs

/-- `chatgpt.py` lines 60–61: the non-blank lines of a text, as counted
by `compute_stats_from_text`. -/
def nonBlankLines (t : Str) : List Str :=
  (pySplitlines t).filter (fun ln => !(pyStrip ln).isEmpty)

/-- `preprocess_sindhi.py` lines 96–98: the file contents produced by
writing each processed sentence followed by a newline. -/
def writeOut (sentences : List Str) : Str :=
  (sentences.map (fun s => s ++ ['\n'])).flatten

/-- The record computed by `chatgpt.py` `compute_stats_from_text`
(floats as rationals; the `round(·, 3)` display rounding is dropped as
it does not affect definedness or the zero case). -/
structure CorpusStats where
  line_count : Nat
  word_count : Nat
  unique_word_count : Nat
  avg_word_length : ℚ
  deriving Repr, DecidableEq

/-- `chatgpt.py` `compute_stats_from_text`: line/word/unique counts and
the average word length, whose division is guarded by
`if word_count else 0.0`. -/
def compute_stats_from_text (t : Str) : Option CorpusStats :=
  let words := extract_words t
  let wc := words.length
  let avg : Option ℚ :=
    if wc = 0 then some 0
    else pyDiv ((words.map (fun w => (w.length : ℚ))).sum) (wc : ℚ)
  avg.map (fun a =>
    { line_count := (nonBlankLines t).length
      word_count := wc
      unique_word_count := (firstSeen words).length
      avg_word_length := a })

/-- The statistics dict of `analyze_sindhi_corpus.py`
`calculate_corpus_statistics` (the ratio fields and their guards). -/
structure AnalyzeStats where
  total_words : Nat
  total_sentences : Nat
  unique_words : Nat
  avg_word_length : ℚ
  avg_sentence_length : ℚ
  vocabulary_diversity : ℚ
  deriving Repr, DecidableEq

/-- `analyze_sindhi_corpus.py` `split_sentences`: split on `[۔؟!]+`,
trim, drop blanks.  A `+`-quantified class split never produces the
empty fragments that arise between adjacent terminators, but those are
dropped by the blank filter anyway, so the single-character split
composed with the filter is the same function. -/
def split_sentences (t : Str) : List Str :=
  ((splitTerm t).map pyStrip).filter (fun s => !s.isEmpty)

/-- `analyze_sindhi_corpus.py` `calculate_corpus_statistics` on
NFC-normalized input: each ratio is guarded by `if words` /
`if sentences`, the unguarded branch using Python division. -/
def calculate_corpus_statistics (t : Str) : Option AnalyzeStats :=
  let words := extract_sindhi_words t
  let sentences := split_sentences t
  let awl : Option ℚ :=
    if words.isEmpty then some 0
    else pyDiv ((words.map (fun w => (w.length : ℚ))).sum) (words.length : ℚ)
  let asl : Option ℚ :=
    if sentences.isEmpty then some 0
    else pyDiv (words.length : ℚ) (sentences.length : ℚ)
  let vd : Option ℚ :=
    if words.isEmpty then some 0
    else pyDiv ((firstSeen words).length : ℚ) (words.length : ℚ)
  match awl, asl, vd with
  | some a, some s, some v =>
    some { total_words := words.length
           total_sentences := sentences.length
           unique_words := (firstSeen words).length
           avg_word_length := a
           avg_sentence_length := s
           vocabulary_diversity := v }
  | _, _, _ => none

/-- The test input `"سلام۔ duniya؟"` of the sentence-splitting example:
the codepoints U+0633 U+0644 U+0627 U+0645 U+06D4, a space, `duniya`,
U+061F. -/
def demoMixed : Str :=
  [Char.ofNat 0x633, Char.ofNat 0x644, Char.ofNat 0x627, Char.ofNat 0x645,
   Char.ofNat 0x6D4, ' ', 'd', 'u', 'n', 'i', 'y', 'a', Char.ofNat 0x61F]

/-- The word `"سلام"` (U+0633 U+0644 U+0627 U+0645). -/
def demoSalam : Str :=
  [Char.ofNat 0x633, Char.ofNat 0x644, Char.ofNat 0x627, Char.ofNat 0x645]

/-- The sentence `"هڪ ٻه ٽي"` of the stopword example
(U+0647 U+06AA, space, U+067B U+0647, space, U+067D U+064A). -/
def demoStopSentence : Str :=
  [Char.ofNat 0x647, Char.ofNat 0x6AA, ' ', Char.ofNat 0x67B,
   Char.ofNat 0x647, ' ', Char.ofNat 0x67D, Char.ofNat 0x64A]

/-- The stopword `"ٻه"` (U+067B U+0647). -/
def demoStopword : Str := [Char.ofNat 0x67B, Char.ofNat 0x647]

/-- The expected result `"هڪ ٽي"` of the stopword example. -/
def demoStopResult : Str :=
  [Char.ofNat 0x647, Char.ofNat 0x6AA, ' ', Char.ofNat 0x67D, Char.ofNat 0x64A]

/-- The token `"اب۔"` (U+0627 U+0628 U+06D4): two Arabic letters
followed by the Arabic full stop. -/
def demoTermToken : Str := [Char.ofNat 0x627, Char.ofNat 0x628, Char.ofNat 0x6D4]

/-- The single Arabic letter `"ا"` (U+0627). -/
def demoAlif : Str := [Char.ofNat 0x627]

/-- A Latin word, matched by the sliced `word_pattern` of
`analyze_sindhi_corpus.py` but not by `ARABIC_SINDHI_RE`. -/
def demoHello : Str := ['h', 'e', 'l', 'l', 'o']

/-- Two Latin letters around a no-break space (U+00A0): a single run of
the sliced `word_pattern`, containing a whitespace character. -/
def demoNbspToken : Str := ['a', Char.ofNat 0xA0, 'b']

/-! ## Helper lemmas -/

theorem takeWhile_congr_mem {p q : Char → Bool} :
    ∀ l : Str, (∀ c ∈ l, p c = q c) → l.takeWhile p = l.takeWhile q
  | [], _ => rfl
  | c :: cs, h => by
    have hc : p c = q c := h c (by simp)
    have hrec := takeWhile_congr_mem cs (fun d hd => h d (by simp [hd]))
    cases hq : q c <;> simp [List.takeWhile_cons, hc, hq, hrec]

theorem dropWhile_congr_mem {p q : Char → Bool} :
    ∀ l : Str, (∀ c ∈ l, p c = q c) → l.dropWhile p = l.dropWhile q
  | [], _ => rfl
  | c :: cs, h => by
    have hc : p c = q c := h c (by simp)
    have hrec := dropWhile_congr_mem cs (fun d hd => h d (by simp [hd]))
    cases hq : q c <;> simp [List.dropWhile_cons, hc, hq, hrec]

/-- A non-empty accumulated run is finished by the matching prefix of
the rest of the input. -/
theorem runsAux_accum (p : Char → Bool) :
    ∀ cs acc : Str, acc ≠ [] →
      runsAux p cs acc =
        (acc.reverse ++ cs.takeWhile p) :: runsAux p (cs.dropWhile p) [] := by
  intro cs
  induction cs with
  | nil =>
    intro acc hacc
    simp [runsAux, List.isEmpty_iff, hacc]
  | cons c cs ih =>
    intro acc hacc
    cases hp : p c with
    | true =>
      simp only [runsAux, hp, if_pos rfl, List.takeWhile_cons,
        List.dropWhile_cons]
      rw [ih (c :: acc) (by simp)]
      simp
    | false =>
      simp only [runsAux, hp, Bool.false_eq_true, if_false,
        List.isEmpty_iff, hacc, List.takeWhile_cons, List.dropWhile_cons]
      simp [hp]

/-- The run decomposition of `findRuns` on a cons cell: a matching head
starts a run made of the matching prefix, and the rest is processed
after that prefix. -/
theorem findRuns_cons (p : Char → Bool) (c : Char) (cs : Str) :
    findRuns p (c :: cs) =
      if p c then (c :: cs.takeWhile p) :: findRuns p (cs.dropWhile p)
      else findRuns p cs := by
  cases hp : p c with
  | true =>
    simp only [findRuns, runsAux, hp, if_pos rfl]
    rw [runsAux_accum p cs [c] (by simp)]
    simp
  | false =>
    simp [findRuns, runsAux, hp]

/-- Every run returned by `findRuns` is non-empty and consists only of
characters satisfying the predicate. -/
theorem findRuns_sound (p : Char → Bool) :
    ∀ l : Str, ∀ w ∈ findRuns p l, w ≠ [] ∧ ∀ c ∈ w, p c = true := by
  have main : ∀ n, ∀ l : Str, l.length ≤ n →
      ∀ w ∈ findRuns p l, w ≠ [] ∧ ∀ c ∈ w, p c = true := by
    intro n
    induction n with
    | zero =>
      intro l hl
      cases l with
      | nil => intro w hw; simp [findRuns, runsAux] at hw
      | cons c cs => simp at hl
    | succ n ih =>
      intro l hl w hw
      cases l with
      | nil => simp [findRuns, runsAux] at hw
      | cons c cs =>
        rw [findRuns_cons] at hw
        by_cases hp : p c = true
        · rw [if_pos hp] at hw
          rcases List.mem_cons.mp hw with h | h
          · subst h
            refine ⟨by simp, ?_⟩
            intro x hx
            rcases List.mem_cons.mp hx with h | h
            · subst h; exact hp
            · exact List.mem_takeWhile_imp h
          · refine ih (cs.dropWhile p) ?_ w h
            have h1 : (cs.dropWhile p).length ≤ cs.length :=
              (cs.dropWhile_sublist p).length_le
            have h2 : cs.length ≤ n := by simpa using Nat.le_of_succ_le_succ hl
            omega
        · rw [if_neg hp] at hw
          refine ih cs ?_ w hw
          simpa using Nat.le_of_succ_le_succ hl
  intro l
  exact main l.length l (Nat.le_refl _)

/-- Predicates that agree on every character of the input produce the
same run decomposition. -/
theorem findRuns_congr {p q : Char → Bool} :
    ∀ l : Str, (∀ c ∈ l, p c = q c) → findRuns p l = findRuns q l := by
  have main : ∀ n, ∀ l : Str, l.length ≤ n →
      (∀ c ∈ l, p c = q c) → findRuns p l = findRuns q l := by
    intro n
    induction n with
    | zero =>
      intro l hl
      cases l with
      | nil => intro _; rfl
      | cons c cs => simp at hl
    | succ n ih =>
      intro l hl hpq
      cases l with
      | nil => rfl
      | cons c cs =>
        have hlen : cs.length ≤ n := by simpa using Nat.le_of_succ_le_succ hl
        have hcs : ∀ c ∈ cs, p c = q c := fun d hd => hpq d (by simp [hd])
        rw [findRuns_cons, findRuns_cons, hpq c (by simp),
          takeWhile_congr_mem cs hcs, dropWhile_congr_mem cs hcs]
        cases hq : q c with
        | false =>
          simp only [Bool.false_eq_true, if_false]
          exact ih cs hlen hcs
        | true =>
          simp only [if_pos rfl, List.cons.injEq, true_and]
          refine congrArg _ (ih (cs.dropWhile q) ?_ ?_)
          · have := (cs.dropWhile_sublist q).length_le
            omega
          · intro d hd
            exact hcs d ((cs.dropWhile_sublist q).subset hd)
  intro l
  exact main l.length l (Nat.le_refl _)

/-- Fragments produced by the terminator split contain no terminator
characters. -/
theorem splitTerm_no_term :
    ∀ l : Str, ∀ f ∈ splitTerm l, ∀ c ∈ f, isTerm c = false := by
  intro l
  induction l with
  | nil => intro f hf c hc; simp [splitTerm] at hf; subst hf; simp at hc
  | cons a as ih =>
    intro f hf c hc
    by_cases ha : isTerm a = true
    · simp only [splitTerm, if_pos ha] at hf
      rcases List.mem_cons.mp hf with h | h
      · subst h; simp at hc
      · exact ih f h c hc
    · simp only [splitTerm, if_neg ha] at hf
      cases hsp : splitTerm as with
      | nil => rw [hsp] at hf; simp at hf; subst hf
               rcases List.mem_singleton.mp hc with rfl
               exact Bool.eq_false_iff.mpr ha
      | cons r rs =>
        rw [hsp] at hf
        rcases List.mem_cons.mp hf with h | h
        · subst h
          rcases List.mem_cons.mp hc with h | h
          · subst h; exact Bool.eq_false_iff.mpr ha
          · exact ih r (by simp [hsp]) c h
        · exact ih f (by simp [hsp, h]) c hc

/-- Stripping only removes characters. -/
theorem mem_of_mem_pyStrip {c : Char} {l : Str} (h : c ∈ pyStrip l) : c ∈ l := by
  have h1 : c ∈ (stripLeading l).reverse.dropWhile pyIsSpace := by
    simpa [pyStrip, stripTrailing, List.mem_reverse] using h
  have h2 : c ∈ (stripLeading l).reverse :=
    ((stripLeading l).reverse.dropWhile_sublist pyIsSpace).subset h1
  have h3 : c ∈ stripLeading l := List.mem_reverse.mp h2
  exact (l.dropWhile_sublist pyIsSpace).subset h3


theorem arabicChar_not_space {c : Char} (h : arabicChar c = true) :
    pyIsSpace c = false := by
  simp only [arabicChar, Bool.or_eq_true, Bool.and_eq_true, decide_eq_true_eq] at h
  simp only [pyIsSpace, Bool.or_eq_true, Bool.and_eq_true, decide_eq_true_eq,
    Bool.or_eq_false_iff, Bool.and_eq_false_iff, decide_eq_false_iff_not,
    Bool.not_eq_true]
  omega

theorem arabicChar_not_bang {c : Char} (h : arabicChar c = true) : c ≠ '!' := by
  intro hc
  rw [hc] at h
  exact absurd h (by decide)

theorem sindhiChar_not_bang {c : Char} (h : sindhiChar c = true) : c ≠ '!' := by
  intro hc
  rw [hc] at h
  exact absurd h (by decide)

theorem sindhiChar_space_cases {c : Char} (h : sindhiChar c = true)
    (hs : pyIsSpace c = true) : c.toNat = 0x85 ∨ c.toNat = 0xA0 := by
  simp only [sindhiChar, Bool.or_eq_true, Bool.and_eq_true, decide_eq_true_eq] at h
  simp only [pyIsSpace, Bool.or_eq_true, Bool.and_eq_true, decide_eq_true_eq] at hs
  omega
/-! ## Claim theorems -/

/-- C1: the Script Filter is a one-for-one character substitution — the
output has the same length as the input, each character outside the
permitted ranges / whitespace / terminators becomes exactly one space
while every other character is kept, and the empty input yields the
empty output. -/
theorem scriptFilter_one_for_one (t : Str) :
    (scriptFilter t).length = t.length ∧
    (∀ i : ℕ, (scriptFilter t)[i]? =
      t[i]?.map (fun c => if allowedChar c then c else ' ')) ∧
    scriptFilter [] = [] := by
  refine ⟨List.length_map _ _, fun i => ?_, rfl⟩
  simp [scriptFilter]

/-- C3 counterexample: filtering and normalizing `"سلام۔ duniya؟"` and
splitting on the terminator set yields exactly one sentence, not two:
the Latin word `duniya` is erased by the script filter, so nothing
remains between the two terminators. -/
theorem sentences_demo_not_two :
    sentencesOf demoMixed = [demoSalam] ∧
    (sentencesOf demoMixed).length ≠ 2 := by decide

/-- C3 amended: the pipeline on `"سلام۔ duniya؟"` yields exactly one
sentence, `"سلام"`; and in general no produced sentence contains any
terminator character (۔, ؟ or !). -/
theorem sentences_demo_amended :
    (sentencesOf demoMixed).length = 1 ∧
    sentencesOf demoMixed = [demoSalam] ∧
    (∀ t : Str, ∀ s ∈ sentencesOf t, ∀ c ∈ s, isTerm c = false) := by
  refine ⟨by decide, by decide, ?_⟩
  intro t s hs c hc
  simp only [sentencesOf, List.mem_filter, List.mem_map] at hs
  obtain ⟨⟨f, hf, rfl⟩, -⟩ := hs
  exact splitTerm_no_term _ f hf c (mem_of_mem_pyStrip hc)

/-- C3 amended, witness: concrete instance of the no-terminator part at
the demo input. -/
theorem sentences_demo_amended_witness :
    isTerm (Char.ofNat 0x633) = false :=
  sentences_demo_amended.2.2 demoMixed demoSalam (by decide)
    (Char.ofNat 0x633) (by decide)

/-- C2 counterexample: script-run tokens can contain sentence
terminators — `ARABIC_SINDHI_RE` covers U+06D4 (۔) and U+061F (؟), so
`extract_words "اب۔"` returns the single token `"اب۔"` containing ۔;
the sliced pattern of `extract_sindhi_words` even matches the no-break
space U+00A0, a whitespace character, inside a token. -/
theorem tokens_counterexample :
    extract_words demoTermToken = [demoTermToken] ∧
    fullStop ∈ demoTermToken ∧
    extract_sindhi_words demoNbspToken = [demoNbspToken] ∧
    Char.ofNat 0xA0 ∈ demoNbspToken ∧
    pyIsSpace (Char.ofNat 0xA0) = true := by decide

/-- C2 amended: tokens of `extract_words` never contain whitespace or
`!` (but may contain ۔/؟, which lie inside the permitted Arabic
block); whitespace-split tokens never contain whitespace; tokens of
`extract_sindhi_words` never contain `!` and the only whitespace they
can contain is U+0085 or U+00A0. -/
theorem tokens_char_classes (t s : Str) :
    (∀ w ∈ extract_words t, w ≠ [] ∧
      ∀ c ∈ w, pyIsSpace c = false ∧ c ≠ '!') ∧
    (∀ w ∈ pySplit s, w ≠ [] ∧ ∀ c ∈ w, pyIsSpace c = false) ∧
    (∀ w ∈ extract_sindhi_words t, ∀ c ∈ w, c ≠ '!' ∧
      (pyIsSpace c = true → c.toNat = 0x85 ∨ c.toNat = 0xA0)) := by
  refine ⟨fun w hw => ?_, fun w hw => ?_, fun w hw c hc => ?_⟩
  · obtain ⟨hne, hall⟩ := findRuns_sound arabicChar t w hw
    exact ⟨hne, fun c hc =>
      ⟨arabicChar_not_space (hall c hc), arabicChar_not_bang (hall c hc)⟩⟩
  · obtain ⟨hne, hall⟩ := findRuns_sound (fun c => !pyIsSpace c) s w hw
    refine ⟨hne, fun c hc => ?_⟩
    have := hall c hc
    simpa using this
  · have hw2 : w ∈ findRuns sindhiChar t :=
      (List.mem_filter.mp hw).1
    obtain ⟨-, hall⟩ := findRuns_sound sindhiChar t w hw2
    exact ⟨sindhiChar_not_bang (hall c hc),
      fun hs => sindhiChar_space_cases (hall c hc) hs⟩

/-- C2 amended, witness: concrete instance at the demo token — the
letter ا of the token `"اب۔"` is not whitespace and is not `!`. -/
theorem tokens_char_classes_witness :
    pyIsSpace (Char.ofNat 0x627) = false ∧ Char.ofNat 0x627 ≠ '!' :=
  ((tokens_char_classes demoTermToken demoStopSentence).1 demoTermToken
    (by decide)).2 (Char.ofNat 0x627) (by decide)

/-- C10 counterexample: the two word extractors disagree —
`extract_words "ا"` keeps the single-character token that
`extract_sindhi_words` drops, and the sliced pattern of
`extract_sindhi_words` matches the Latin word `hello` that
`ARABIC_SINDHI_RE` rejects. -/
theorem extractors_disagree :
    extract_words demoAlif = [demoAlif] ∧
    extract_sindhi_words demoAlif = [] ∧
    extract_words demoAlif ≠ extract_sindhi_words demoAlif ∧
    extract_sindhi_words demoHello = [demoHello] ∧
    extract_words demoHello = [] := by decide

/-- C10 amended: on texts whose characters are matched identically by
the two character classes (in particular pure Arabic-block text with
ASCII-control/space separators), the analyzer's extractor returns
exactly the chatgpt extractor's tokens with single-character tokens
dropped; in general the two disagree (see the counterexample). -/
theorem extractors_agree_on_common (t : Str)
    (h : ∀ c ∈ t, sindhiChar c = arabicChar c) :
    extract_sindhi_words t = (extract_words t).filter (fun w => 1 < w.length) := by
  unfold extract_sindhi_words extract_words
  rw [findRuns_congr t h]

/-- C10 amended, witness: concrete instance on the all-Arabic stopword
demo sentence. -/
theorem extractors_agree_on_common_witness :
    extract_sindhi_words demoStopSentence =
      (extract_words demoStopSentence).filter (fun w => 1 < w.length) :=
  extractors_agree_on_common demoStopSentence (by decide)

theorem mem_insertDesc {z x : Str × Nat} :
    ∀ l : List (Str × Nat), z ∈ insertDesc x l ↔ z = x ∨ z ∈ l
  | [] => by simp [insertDesc]
  | y :: ys => by
    by_cases h : x.2 < y.2
    · simp only [insertDesc, if_pos h, List.mem_cons, mem_insertDesc ys]
      tauto
    · simp only [insertDesc, if_neg h, List.mem_cons]

theorem insertDesc_sorted {x : Str × Nat} :
    ∀ l : List (Str × Nat), l.Pairwise (fun a b => b.2 ≤ a.2) →
      (insertDesc x l).Pairwise (fun a b => b.2 ≤ a.2)
  | [], _ => by simp [insertDesc]
  | y :: ys, h => by
    rcases List.pairwise_cons.mp h with ⟨hy, hys⟩
    by_cases hx : x.2 < y.2
    · rw [insertDesc, if_pos hx]
      refine List.pairwise_cons.mpr ⟨?_, insertDesc_sorted ys hys⟩
      intro z hz
      rcases (mem_insertDesc ys).mp hz with rfl | hz
      · exact Nat.le_of_lt hx
      · exact hy z hz
    · rw [insertDesc, if_neg hx]
      refine List.pairwise_cons.mpr ⟨?_, h⟩
      intro z hz
      rcases List.mem_cons.mp hz with rfl | hz
      · exact Nat.le_of_not_lt hx
      · exact Nat.le_trans (hy z hz) (Nat.le_of_not_lt hx)

theorem sortDesc_sorted :
    ∀ l : List (Str × Nat), (sortDesc l).Pairwise (fun a b => b.2 ≤ a.2)
  | [] => by simp [sortDesc]
  | x :: xs => insertDesc_sorted (sortDesc xs) (sortDesc_sorted xs)

theorem insertDesc_filter_count {x : Str × Nat} {c : Nat} :
    ∀ l : List (Str × Nat),
      (insertDesc x l).filter (fun q => q.2 == c) =
        if x.2 = c then x :: l.filter (fun q => q.2 == c)
        else l.filter (fun q => q.2 == c)
  | [] => by
    by_cases hx : x.2 = c <;> simp [insertDesc, List.filter_cons, beq_iff_eq, hx]
  | y :: ys => by
    by_cases hlt : x.2 < y.2
    · rw [insertDesc, if_pos hlt]
      by_cases hx : x.2 = c
      · have hy : ¬ y.2 = c := by omega
        simp [List.filter_cons, beq_iff_eq, hy, insertDesc_filter_count ys, hx]
      · by_cases hy : y.2 = c <;>
          simp [List.filter_cons, beq_iff_eq, hy, insertDesc_filter_count ys, hx]
    · rw [insertDesc, if_neg hlt]
      by_cases hx : x.2 = c <;> simp [List.filter_cons, beq_iff_eq, hx]

theorem sortDesc_stable (c : Nat) :
    ∀ l : List (Str × Nat),
      (sortDesc l).filter (fun q => q.2 == c) = l.filter (fun q => q.2 == c)
  | [] => rfl
  | x :: xs => by
    rw [sortDesc, insertDesc_filter_count]
    by_cases hx : x.2 = c <;>
      simp [hx, List.filter_cons, beq_iff_eq, sortDesc_stable c xs]

theorem insertDesc_perm (x : Str × Nat) :
    ∀ l : List (Str × Nat), List.Perm (insertDesc x l) (x :: l)
  | [] => by simp [insertDesc]
  | y :: ys => by
    by_cases h : x.2 < y.2
    · rw [insertDesc, if_pos h]
      exact ((insertDesc_perm x ys).cons y).trans (List.Perm.swap x y ys)
    · rw [insertDesc, if_neg h]

theorem sortDesc_perm : ∀ l : List (Str × Nat), List.Perm (sortDesc l) l
  | [] => List.Perm.refl _
  | x :: xs => (insertDesc_perm x (sortDesc xs)).trans ((sortDesc_perm xs).cons x)

/-- C4: `most_common` returns entries in descending count order; the
sort underlying it is stable, so entries of any fixed count keep the
counter's first-insertion order; the sort loses and duplicates nothing;
and on the tokens a b a c b a, `mostCommon 2` is exactly
(a,3),(b,2). -/
theorem mostCommon_spec (toks : List Str) (n c : ℕ) :
    (mostCommon toks n).Pairwise (fun a b => b.2 ≤ a.2) ∧
    (sortDesc (counterItems toks)).filter (fun q => q.2 == c) =
      (counterItems toks).filter (fun q => q.2 == c) ∧
    List.Perm (sortDesc (counterItems toks)) (counterItems toks) ∧
    mostCommon [['a'], ['b'], ['a'], ['c'], ['b'], ['a']] 2 =
      [(['a'], 3), (['b'], 2)] := by
  refine ⟨?_, sortDesc_stable c _, sortDesc_perm _, by decide⟩
  exact (sortDesc_sorted (counterItems toks)).sublist
    ((sortDesc (counterItems toks)).take_sublist n)

theorem chunksOfAux_fuel_eq {α : Type} (m : Nat) (hm : 0 < m) :
    ∀ f1 f2 (l : List α), l.length ≤ f1 → l.length ≤ f2 →
      chunksOfAux m f1 l = chunksOfAux m f2 l := by
  intro f1
  induction f1 with
  | zero =>
    intro f2 l h1 h2
    have : l = [] := List.length_eq_zero.mp (Nat.le_zero.mp h1)
    subst this
    cases f2 <;> simp [chunksOfAux]
  | succ f ih =>
    intro f2 l h1 h2
    cases l with
    | nil => cases f2 <;> simp [chunksOfAux]
    | cons x xs =>
      cases f2 with
      | zero => simp at h2
      | succ g =>
        simp only [chunksOfAux, List.cons.injEq, true_and]
        apply ih g
        · rw [List.length_drop]
          simp only [List.length_cons] at h1 ⊢
          omega
        · rw [List.length_drop]
          simp only [List.length_cons] at h2 ⊢
          omega

theorem chunksOf_cons_eq {α : Type} (m : Nat) (hm : 0 < m) (l : List α)
    (hl : l ≠ []) : chunksOf m l = l.take m :: chunksOf m (l.drop m) := by
  cases l with
  | nil => exact absurd rfl hl
  | cons x xs =>
    show chunksOfAux m (xs.length + 1) (x :: xs) = _
    simp only [chunksOfAux, List.cons.injEq, true_and]
    apply chunksOfAux_fuel_eq m hm
    · rw [List.length_drop]
      simp only [List.length_cons]
      omega
    · exact Nat.le_refl _

theorem chunksOf_flatten {α : Type} (m : Nat) (hm : 0 < m) :
    ∀ l : List α, (chunksOf m l).flatten = l := by
  have main : ∀ n, ∀ l : List α, l.length ≤ n → (chunksOf m l).flatten = l := by
    intro n
    induction n with
    | zero =>
      intro l hl
      have : l = [] := List.length_eq_zero.mp (Nat.le_zero.mp hl)
      subst this
      rfl
    | succ n ih =>
      intro l hl
      cases hcase : l with
      | nil => rfl
      | cons x xs =>
        subst hcase
        rw [chunksOf_cons_eq m hm _ (by simp), List.flatten_cons,
          ih ((x :: xs).drop m) ?_, List.take_append_drop]
        rw [List.length_drop]
        simp only [List.length_cons] at hl ⊢
        omega
  intro l
  exact main l.length l (Nat.le_refl _)

theorem chunksOf_mem_size {α : Type} (m : Nat) (hm : 0 < m) :
    ∀ l : List α, ∀ ch ∈ chunksOf m l, ch ≠ [] ∧ ch.length ≤ m := by
  have main : ∀ n, ∀ l : List α, l.length ≤ n →
      ∀ ch ∈ chunksOf m l, ch ≠ [] ∧ ch.length ≤ m := by
    intro n
    induction n with
    | zero =>
      intro l hl ch hch
      have : l = [] := List.length_eq_zero.mp (Nat.le_zero.mp hl)
      subst this
      simp [chunksOf, chunksOfAux] at hch
    | succ n ih =>
      intro n2 hl ch hch
      cases hcase : n2 with
      | nil => subst hcase; simp [chunksOf, chunksOfAux] at hch
      | cons x xs =>
        subst hcase
        rw [chunksOf_cons_eq m hm _ (by simp)] at hch
        rcases List.mem_cons.mp hch with rfl | hch
        · constructor
          · have hpos : 0 < ((x :: xs).take m).length := by
              rw [List.length_take]
              simp only [List.length_cons]
              omega
            exact List.ne_nil_of_length_pos hpos
          · rw [List.length_take]
            exact Nat.min_le_left _ _
        · refine ih ((x :: xs).drop m) ?_ ch hch
          rw [List.length_drop]
          simp only [List.length_cons] at hl ⊢
          omega
  intro l
  exact main l.length l (Nat.le_refl _)

theorem chunksOf_ne_nil {α : Type} (m : Nat) (hm : 0 < m) (l : List α)
    (hl : l ≠ []) : chunksOf m l ≠ [] := by
  rw [chunksOf_cons_eq m hm l hl]
  simp

theorem chunksOf_dropLast_size {α : Type} (m : Nat) (hm : 0 < m) :
    ∀ l : List α, ∀ ch ∈ (chunksOf m l).dropLast, ch.length = m := by
  have main : ∀ n, ∀ l : List α, l.length ≤ n →
      ∀ ch ∈ (chunksOf m l).dropLast, ch.length = m := by
    intro n
    induction n with
    | zero =>
      intro l hl ch hch
      have : l = [] := List.length_eq_zero.mp (Nat.le_zero.mp hl)
      subst this
      simp [chunksOf, chunksOfAux] at hch
    | succ n ih =>
      intro l hl ch hch
      cases hcase : l with
      | nil => subst hcase; simp [chunksOf, chunksOfAux] at hch
      | cons x xs =>
        subst hcase
        rw [chunksOf_cons_eq m hm _ (by simp)] at hch
        by_cases hdrop : (x :: xs).drop m = []
        · rw [hdrop] at hch
          simp [chunksOf, chunksOfAux] at hch
        · have hne := chunksOf_ne_nil m hm _ hdrop
          cases hrest : chunksOf m ((x :: xs).drop m) with
          | nil => exact absurd hrest hne
          | cons r rs =>
            rw [hrest] at hch
            rcases List.mem_cons.mp (by
              simpa [List.dropLast] using hch) with rfl | hch2
            · rw [List.length_take]
              have hlen : m < (x :: xs).length := by
                by_contra hcon
                push_neg at hcon
                exact hdrop (List.drop_eq_nil_of_le hcon)
              omega
            · have hmem : ch ∈ (chunksOf m ((x :: xs).drop m)).dropLast := by
                rw [hrest]
                exact hch2
              refine ih ((x :: xs).drop m) ?_ ch hmem
              rw [List.length_drop]
              simp only [List.length_cons] at hl ⊢
              omega
  intro l
  exact main l.length l (Nat.le_refl _)

/-- C5: sentences with at most `maxWords` words are kept unchanged by
`split_long_sentences`; longer ones become the space-joins of the
consecutive word windows; the windows concatenate back to the original
word list (order kept, nothing lost or duplicated), all windows except
possibly the last have exactly `maxWords` words, every window is
non-empty and at most `maxWords` long; and a 25-word sentence with
`maxWords = 10` yields exactly 3 chunks of 10, 10 and 5 words. -/
theorem split_long_sentences_spec (m : ℕ) (hm : 0 < m) :
    (∀ s : Str, (pySplit s).length ≤ m → split_long_sentences m [s] = [s]) ∧
    (∀ s : Str, m < (pySplit s).length →
      split_long_sentences m [s] = (chunksOf m (pySplit s)).map joinSpace) ∧
    (∀ ws : List Str, (chunksOf m ws).flatten = ws) ∧
    (∀ ws : List Str, ∀ ch ∈ (chunksOf m ws).dropLast, ch.length = m) ∧
    (∀ ws : List Str, ∀ ch ∈ chunksOf m ws, ch ≠ [] ∧ ch.length ≤ m) ∧
    (split_long_sentences 10 [joinSpace (List.replicate 25 demoAlif)]).map
      (fun s => (pySplit s).length) = [10, 10, 5] := by
  refine ⟨fun s hs => ?_, fun s hs => ?_, chunksOf_flatten m hm,
    chunksOf_dropLast_size m hm, chunksOf_mem_size m hm, by decide⟩
  · simp [split_long_sentences, hs]
  · have hneg : ¬ (pySplit s).length ≤ m := Nat.not_le_of_lt hs
    simp [split_long_sentences, hneg]

/-- C5 witness: the concrete 25-word instance, obtained from the claim
theorem at `maxWords = 10`. -/
theorem split_long_sentences_spec_witness :
    (split_long_sentences 10 [joinSpace (List.replicate 25 demoAlif)]).map
      (fun s => (pySplit s).length) = [10, 10, 5] :=
  (split_long_sentences_spec 10 (by decide)).2.2.2.2.2

theorem takeWhile_all {p : Char → Bool} :
    ∀ l : Str, (∀ c ∈ l, p c = true) → l.takeWhile p = l
  | [], _ => rfl
  | c :: cs, h => by
    rw [List.takeWhile_cons, if_pos (h c (by simp)),
      takeWhile_all cs (fun d hd => h d (by simp [hd]))]

theorem dropWhile_all {p : Char → Bool} :
    ∀ l : Str, (∀ c ∈ l, p c = true) → l.dropWhile p = []
  | [], _ => rfl
  | c :: cs, h => by
    rw [List.dropWhile_cons, if_pos (h c (by simp))]
    exact dropWhile_all cs (fun d hd => h d (by simp [hd]))

theorem takeWhile_append_stop {p : Char → Bool} {y : Char} :
    ∀ xs t : Str, (∀ x ∈ xs, p x = true) → p y = false →
      (xs ++ y :: t).takeWhile p = xs
  | [], t, _, hy => by simp [List.takeWhile_cons, hy]
  | x :: xs, t, h, hy => by
    simp only [List.cons_append, List.takeWhile_cons, if_pos (h x (by simp))]
    rw [takeWhile_append_stop xs t (fun d hd => h d (by simp [hd])) hy]

theorem dropWhile_append_stop {p : Char → Bool} {y : Char} :
    ∀ xs t : Str, (∀ x ∈ xs, p x = true) → p y = false →
      (xs ++ y :: t).dropWhile p = y :: t
  | [], t, _, hy => by simp [List.dropWhile_cons, hy]
  | x :: xs, t, h, hy => by
    simp only [List.cons_append, List.dropWhile_cons, if_pos (h x (by simp))]
    exact dropWhile_append_stop xs t (fun d hd => h d (by simp [hd])) hy

/-- Splitting undoes joining: whitespace-splitting a single-space join
of non-empty whitespace-free words returns exactly those words. -/
theorem pySplit_joinSpace :
    ∀ ws : List Str, (∀ w ∈ ws, w ≠ [] ∧ ∀ c ∈ w, pyIsSpace c = false) →
      pySplit (joinSpace ws) = ws
  | [], _ => rfl
  | [w], h => by
    obtain ⟨hne, hall⟩ := h w (by simp)
    cases w with
    | nil => exact absurd rfl hne
    | cons c cs =>
      show findRuns _ (c :: cs) = [c :: cs]
      rw [findRuns_cons]
      have hc : (!pyIsSpace c) = true := by simp [hall c (by simp)]
      rw [if_pos hc, takeWhile_all cs (fun d hd => by
            simp [hall d (by simp [hd])]),
        dropWhile_all cs (fun d hd => by simp [hall d (by simp [hd])])]
      rfl
  | w :: v :: vs, h => by
    obtain ⟨hne, hall⟩ := h w (by simp)
    have hrest := pySplit_joinSpace (v :: vs)
      (fun u hu => h u (by simp [List.mem_cons] at hu ⊢; tauto))
    cases w with
    | nil => exact absurd rfl hne
    | cons c cs =>
      show findRuns _ ((c :: cs) ++ ' ' :: joinSpace (v :: vs)) = _
      rw [List.cons_append, findRuns_cons]
      have hc : (!pyIsSpace c) = true := by simp [hall c (by simp)]
      have hsp : (!pyIsSpace ' ') = false := by decide
      rw [if_pos hc,
        takeWhile_append_stop cs _ (fun d hd => by
          simp [hall d (by simp [hd])]) hsp,
        dropWhile_append_stop cs _ (fun d hd => by
          simp [hall d (by simp [hd])]) hsp,
        findRuns_cons]
      rw [if_neg (by simp [hsp])]
      exact congrArg _ hrest

/-- A single-space join of non-empty whitespace-free words ends in a
non-whitespace character. -/
theorem joinSpace_last :
    ∀ ws : List Str, ws ≠ [] →
      (∀ w ∈ ws, w ≠ [] ∧ ∀ c ∈ w, pyIsSpace c = false) →
      ∃ ys c, pyIsSpace c = false ∧ joinSpace ws = ys ++ [c]
  | [], hne, _ => absurd rfl hne
  | [w], _, h => by
    obtain ⟨hne, hall⟩ := h w (by simp)
    refine ⟨w.dropLast, w.getLast hne, hall _ (List.getLast_mem hne), ?_⟩
    show joinSpace [w] = _
    rw [List.dropLast_append_getLast hne]
    rfl
  | w :: v :: vs, _, h => by
    obtain ⟨ys, c, hc, heq⟩ := joinSpace_last (v :: vs) (by simp)
      (fun u hu => h u (by simp [List.mem_cons] at hu ⊢; tauto))
    refine ⟨w ++ ' ' :: ys, c, hc, ?_⟩
    show w ++ ' ' :: joinSpace (v :: vs) = _
    rw [heq]
    simp

/-- Stripping fixes a single-space join of non-empty whitespace-free
words. -/
theorem pyStrip_joinSpace (ws : List Str)
    (h : ∀ w ∈ ws, w ≠ [] ∧ ∀ c ∈ w, pyIsSpace c = false) :
    pyStrip (joinSpace ws) = joinSpace ws := by
  cases hws : ws with
  | nil => rfl
  | cons w rest =>
    subst hws
    obtain ⟨hne, hall⟩ := h w (by simp)
    have hlead : stripLeading (joinSpace (w :: rest)) = joinSpace (w :: rest) := by
      cases w with
      | nil => exact absurd rfl hne
      | cons c cs =>
        have hc : pyIsSpace c = false := hall c (by simp)
        cases rest with
        | nil =>
          show List.dropWhile _ (c :: cs) = c :: cs
          rw [List.dropWhile_cons, if_neg (by simp [hc])]
        | cons v vs =>
          show List.dropWhile _ ((c :: cs) ++ ' ' :: joinSpace (v :: vs)) = _
          rw [List.cons_append, List.dropWhile_cons, if_neg (by simp [hc])]
          rfl
    obtain ⟨ys, c, hc, heq⟩ := joinSpace_last (w :: rest) (by simp) h
    have htrail : stripTrailing (joinSpace (w :: rest)) = joinSpace (w :: rest) := by
      rw [heq]
      show ((ys ++ [c]).reverse.dropWhile pyIsSpace).reverse = _
      rw [List.reverse_append, List.reverse_singleton, List.singleton_append,
        List.dropWhile_cons, if_neg (by simp [hc])]
      simp
    rw [pyStrip, hlead, htrail]

/-- C6: the stopword filter removes exactly the whitespace-delimited
tokens that exact-match a stopword, keeping the rest in order rejoined
by single spaces (witnessed by re-splitting the output); its output
needs no further trimming; the final cleaned output drops exactly the
sentences that became empty; and the `"هڪ ٻه ٽي"` example gives
`"هڪ ٽي"`. -/
theorem remove_stopwords_spec (stopwords : List Str) (s : Str)
    (sents : List Str) :
    pySplit (remove_stopwords stopwords s) =
      (pySplit s).filter (fun w => !stopwords.contains w) ∧
    pyStrip (remove_stopwords stopwords s) = remove_stopwords stopwords s ∧
    processedOutput stopwords sents =
      (sents.map (remove_stopwords stopwords)).filter (fun x => !x.isEmpty) ∧
    remove_stopwords [demoStopword] demoStopSentence = demoStopResult := by
  have hwords : ∀ w ∈ (pySplit s).filter (fun w => !stopwords.contains w),
      w ≠ [] ∧ ∀ c ∈ w, pyIsSpace c = false := by
    intro w hw
    have hw2 : w ∈ pySplit s := (List.mem_filter.mp hw).1
    obtain ⟨hne, hall⟩ := findRuns_sound _ s w hw2
    exact ⟨hne, fun c hc => by simpa using hall c hc⟩
  refine ⟨pySplit_joinSpace _ hwords, pyStrip_joinSpace _ hwords, ?_, by decide⟩
  unfold processedOutput
  apply List.filter_congr
  intro x hx
  obtain ⟨s0, hs0, rfl⟩ := List.mem_map.mp hx
  have hfix : pyStrip (remove_stopwords stopwords s0) =
      remove_stopwords stopwords s0 := by
    apply pyStrip_joinSpace
    intro w hw
    have hw2 : w ∈ pySplit s0 := (List.mem_filter.mp hw).1
    obtain ⟨hne, hall⟩ := findRuns_sound _ s0 w hw2
    exact ⟨hne, fun c hc => by simpa using hall c hc⟩
  rw [hfix]

theorem compute_stats_isSome (t : Str) :
    ∃ r, compute_stats_from_text t = some r := by
  unfold compute_stats_from_text pyDiv
  by_cases hw : (extract_words t).length = 0
  · simp [hw]
  · have hq : ((extract_words t).length : ℚ) ≠ 0 := by
      exact_mod_cast hw
    simp [hw, hq]

theorem calculate_stats_isSome (t : Str) :
    ∃ r, calculate_corpus_statistics t = some r := by
  unfold calculate_corpus_statistics pyDiv
  by_cases hw : (extract_sindhi_words t).isEmpty
  · by_cases hs : (split_sentences t).isEmpty
    · simp [hw, hs]
    · have hq : ((split_sentences t).length : ℚ) ≠ 0 := by
        have := List.isEmpty_iff_length_eq_zero.not.mp hs
        exact_mod_cast this
      simp [hw, hs, hq]
  · have hq : ((extract_sindhi_words t).length : ℚ) ≠ 0 := by
      have := List.isEmpty_iff_length_eq_zero.not.mp hw
      exact_mod_cast this
    by_cases hs : (split_sentences t).isEmpty
    · simp [hw, hs, hq]
    · have hq2 : ((split_sentences t).length : ℚ) ≠ 0 := by
        have := List.isEmpty_iff_length_eq_zero.not.mp hs
        exact_mod_cast this
      simp [hw, hs, hq, hq2]

/-- C7: the statistics calculators are total — both return a defined
record on every input (any unguarded division would be `none`) — and
each ratio whose denominator is zero is `0`: average word length and
vocabulary diversity with no tokens, and average sentence length with
no sentences. -/
theorem stats_never_error (t : Str) :
    (∃ r, compute_stats_from_text t = some r) ∧
    (∃ r, calculate_corpus_statistics t = some r) ∧
    (∀ r, compute_stats_from_text t = some r → extract_words t = [] →
      r.avg_word_length = 0) ∧
    (∀ r, calculate_corpus_statistics t = some r →
      (extract_sindhi_words t = [] →
        r.avg_word_length = 0 ∧ r.vocabulary_diversity = 0) ∧
      (split_sentences t = [] → r.avg_sentence_length = 0)) := by
  refine ⟨compute_stats_isSome t, calculate_stats_isSome t,
    fun r hr hw => ?_, fun r hr => ⟨fun hw => ?_, fun hs => ?_⟩⟩
  · rw [compute_stats_from_text] at hr
    simp only [hw, List.length_nil, if_pos rfl, Option.map_some] at hr
    obtain ⟨rfl⟩ := (Option.some.injEq _ _).mp hr.symm ▸ hr
    cases hr
    rfl
  · rw [calculate_corpus_statistics] at hr
    simp only [hw, List.isEmpty_nil, if_pos rfl] at hr
    by_cases hs : (split_sentences t).isEmpty
    · simp only [hs, if_pos rfl] at hr
      cases hr
      exact ⟨rfl, rfl⟩
    · simp only [hs, Bool.false_eq_true, if_false, pyDiv] at hr
      have hq : ((split_sentences t).length : ℚ) ≠ 0 := by
        have := List.isEmpty_iff_length_eq_zero.not.mp hs
        exact_mod_cast this
      rw [if_neg hq] at hr
      cases hr
      exact ⟨rfl, rfl⟩
  · rw [calculate_corpus_statistics] at hr
    have hs' : (split_sentences t).isEmpty = true := by simp [hs]
    simp only [hs', if_pos rfl] at hr
    by_cases hw : (extract_sindhi_words t).isEmpty
    · simp only [hw, if_pos rfl] at hr
      cases hr
      rfl
    · simp only [hw, Bool.false_eq_true, if_false, pyDiv] at hr
      have hq : ((extract_sindhi_words t).length : ℚ) ≠ 0 := by
        have := List.isEmpty_iff_length_eq_zero.not.mp hw
        exact_mod_cast this
      rw [if_neg hq, if_neg hq] at hr
      cases hr
      rfl

/-- C7 witness: on the empty corpus both calculators succeed and the
average word length is zero. -/
theorem stats_never_error_witness :
    ∃ r, compute_stats_from_text [] = some r ∧ r.avg_word_length = 0 := by
  obtain ⟨⟨r, hr⟩, -, h3, -⟩ := stats_never_error []
  exact ⟨r, hr, h3 r hr (by decide)⟩

theorem pySplitlines_append_newline :
    ∀ s rest : Str, (∀ c ∈ s, isLineBreak c = false) →
      pySplitlines (s ++ '\n' :: rest) = s :: pySplitlines rest := by
  intro s
  induction s with
  | nil =>
    intro rest _
    cases rest with
    | nil => decide
    | cons r rs =>
      show pySplitlines ('\n' :: r :: rs) = [] :: pySplitlines (r :: rs)
      rw [pySplitlines]
      rw [if_pos (by decide), if_neg (by simp)]
  | cons c s ih =>
    intro rest h
    have hc : isLineBreak c = false := h c (by simp)
    have hrec := ih rest (fun d hd => h d (by simp [hd]))
    cases hsp : s ++ '\n' :: rest with
    | nil => exact absurd hsp (by simp)
    | cons d ds =>
      rw [List.cons_append, hsp, pySplitlines, if_neg (by simp [hc])]
      rw [hsp] at hrec
      rw [hrec]

theorem pySplitlines_writeOut :
    ∀ sents : List Str, (∀ s ∈ sents, ∀ c ∈ s, isLineBreak c = false) →
      pySplitlines (writeOut sents) = sents
  | [], _ => rfl
  | s :: rest, h => by
    have hres := pySplitlines_writeOut rest (fun u hu c hc => h u (by simp [hu]) c hc)
    show pySplitlines ((s ++ ['\n']) ++ writeOut rest) = s :: rest
    rw [List.append_assoc, List.singleton_append,
      pySplitlines_append_newline s _ (fun c hc => h s (by simp) c hc), hres]

/-- C8: writing non-blank, line-break-free sentences one per line with
a trailing newline and re-loading through the Text Loader (reading plus
a normalization `norm` that maps lines to lines and preserves
blankness, as Unicode NFC does) yields exactly as many non-blank lines
as sentences written: the write/read cycle drops nothing. -/
theorem writeOut_roundTrip (sents : List Str) (norm : Str → Str)
    (hsent : ∀ s ∈ sents, pyStrip s ≠ [] ∧ ∀ c ∈ s, isLineBreak c = false)
    (hnorm_lines : pySplitlines (norm (writeOut sents)) =
      (pySplitlines (writeOut sents)).map norm)
    (hnorm_strip : ∀ s : Str, pyStrip (norm s) = [] ↔ pyStrip s = []) :
    (nonBlankLines (norm (writeOut sents))).length = sents.length := by
  unfold nonBlankLines
  rw [hnorm_lines, pySplitlines_writeOut sents (fun s hs => (hsent s hs).2)]
  rw [List.filter_eq_self.mpr ?_, List.length_map]
  intro a ha
  obtain ⟨s, hs, rfl⟩ := List.mem_map.mp ha
  have h1 : pyStrip (norm s) ≠ [] := fun hcon =>
    (hsent s hs).1 ((hnorm_strip s).mp hcon)
  simpa [List.isEmpty_iff] using h1

/-- C8 witness: the round trip at a concrete one-sentence corpus with
the identity normalization. -/
theorem writeOut_roundTrip_witness :
    (nonBlankLines (writeOut [demoSalam])).length = 1 := by
  have h := writeOut_roundTrip [demoSalam] id (by decide)
    (by simp) (fun s => Iff.rfl)
  simpa using h

theorem collapseWsAux_space_chars :
    ∀ (l : Str) (b : Bool) (c : Char), c ∈ collapseWsAux l b →
      pyIsSpace c = true → c = ' '
  | [], _, _, hc, _ => by simp [collapseWsAux] at hc
  | d :: ds, b, c, hc, hsp => by
    by_cases hd : pyIsSpace d = true
    · rw [collapseWsAux, if_pos hd] at hc
      cases b with
      | true =>
        simp only [if_pos rfl] at hc
        exact collapseWsAux_space_chars ds true c hc hsp
      | false =>
        simp only [Bool.false_eq_true, if_false, List.mem_cons] at hc
        rcases hc with rfl | hc
        · rfl
        · exact collapseWsAux_space_chars ds true c hc hsp
    · rw [collapseWsAux, if_neg hd] at hc
      rcases List.mem_cons.mp hc with rfl | hc
      · exact absurd hsp hd
      · exact collapseWsAux_space_chars ds false c hc hsp

theorem collapseWsAux_true_head :
    ∀ (l : Str) (d : Char), (collapseWsAux l true).head? = some d →
      pyIsSpace d = false
  | [], d, h => by simp [collapseWsAux] at h
  | c :: cs, d, h => by
    by_cases hc : pyIsSpace c = true
    · rw [collapseWsAux, if_pos hc] at h
      simp only [if_pos rfl] at h
      exact collapseWsAux_true_head cs d h
    · rw [collapseWsAux, if_neg hc] at h
      simp only [List.head?_cons, Option.some.injEq] at h
      subst h
      exact Bool.eq_false_iff.mpr hc

theorem collapseWsAux_chain :
    ∀ (l : Str) (b : Bool),
      List.Chain' (fun a c => pyIsSpace a = false ∨ pyIsSpace c = false)
        (collapseWsAux l b)
  | [], _ => by simp [collapseWsAux]
  | c :: cs, b => by
    by_cases hc : pyIsSpace c = true
    · rw [collapseWsAux, if_pos hc]
      cases b with
      | true =>
        simp only [if_pos rfl]
        exact collapseWsAux_chain cs true
      | false =>
        simp only [Bool.false_eq_true, if_false]
        refine List.chain'_cons'.mpr ⟨?_, collapseWsAux_chain cs true⟩
        intro d hd
        exact Or.inr (collapseWsAux_true_head cs d (Option.mem_def.mp hd))
    · rw [collapseWsAux, if_neg hc]
      refine List.chain'_cons'.mpr ⟨?_, collapseWsAux_chain cs false⟩
      intro d _
      exact Or.inl (Bool.eq_false_iff.mpr hc)

theorem collapseWsAux_fix :
    ∀ (l : Str) (b : Bool),
      (∀ c ∈ l, pyIsSpace c = true → c = ' ') →
      List.Chain' (fun a c => pyIsSpace a = false ∨ pyIsSpace c = false) l →
      (b = true → ∀ d ∈ l.head?, pyIsSpace d = false) →
      collapseWsAux l b = l
  | [], _, _, _, _ => rfl
  | c :: cs, b, hchars, hchain, hb => by
    by_cases hc : pyIsSpace c = true
    · cases b with
      | true =>
        have := hb rfl c (by simp)
        rw [this] at hc
        exact absurd hc (by simp)
      | false =>
        rw [collapseWsAux, if_pos hc]
        simp only [Bool.false_eq_true, if_false]
        have hc' : c = ' ' := hchars c (by simp) hc
        subst hc'
        refine congrArg _ (collapseWsAux_fix cs true
          (fun d hd => hchars d (by simp [hd]))
          (hchain.tail) ?_)
        intro _ d hd
        have hrel := List.chain'_cons'.mp hchain
        rcases hrel.1 d hd with h | h
        · exact absurd hc (by simp [h])
        · exact h
    · rw [collapseWsAux, if_neg hc]
      refine congrArg _ (collapseWsAux_fix cs false
        (fun d hd => hchars d (by simp [hd])) (hchain.tail) ?_)
      intro hcon
      exact absurd hcon (by simp)

theorem head_dropWhile_false (p : Char → Bool) :
    ∀ (l : Str) (d : Char), (l.dropWhile p).head? = some d → p d = false
  | [], d, h => by simp at h
  | c :: cs, d, h => by
    by_cases hc : p c = true
    · rw [List.dropWhile_cons, if_pos hc] at h
      exact head_dropWhile_false p cs d h
    · rw [List.dropWhile_cons, if_neg hc] at h
      simp only [List.head?_cons, Option.some.injEq] at h
      subst h
      exact Bool.eq_false_iff.mpr hc

theorem stripTrailing_starts (l : Str) : stripTrailing l <+: l := by
  obtain ⟨s, hs⟩ := l.reverse.dropWhile_suffix pyIsSpace
  refine ⟨s.reverse, ?_⟩
  have hrev := congrArg List.reverse hs
  simpa [List.reverse_append, stripTrailing] using hrev

theorem pyStrip_head_false (l : Str) :
    ∀ d, (pyStrip l).head? = some d → pyIsSpace d = false := by
  intro d hd
  have hpre : pyStrip l <+: stripLeading l := stripTrailing_starts _
  obtain ⟨t, ht⟩ := hpre
  have : (stripLeading l).head? = some d := by
    rw [← ht]
    cases hz : pyStrip l with
    | nil => rw [hz] at hd; simp at hd
    | cons x xs =>
      rw [hz] at hd
      simp only [List.head?_cons, Option.some.injEq] at hd
      subst hd
      simp
  exact head_dropWhile_false pyIsSpace l d this

theorem pyStrip_last_false (l : Str) :
    ∀ d, (pyStrip l).getLast? = some d → pyIsSpace d = false := by
  intro d hd
  have hrev : (pyStrip l).reverse = (stripLeading l).reverse.dropWhile pyIsSpace := by
    show (stripTrailing (stripLeading l)).reverse = _
    rw [stripTrailing, List.reverse_reverse]
  rw [← List.head?_reverse, hrev] at hd
  exact head_dropWhile_false pyIsSpace _ d hd

theorem pyStrip_fix (l : Str)
    (hhead : ∀ d, l.head? = some d → pyIsSpace d = false)
    (hlast : ∀ d, l.getLast? = some d → pyIsSpace d = false) :
    pyStrip l = l := by
  have h1 : stripLeading l = l := by
    cases hl : l with
    | nil => rfl
    | cons c cs =>
      have := hhead c (by rw [hl]; simp)
      show List.dropWhile _ (c :: cs) = c :: cs
      rw [List.dropWhile_cons, if_neg (by simp [this])]
  have h2 : stripTrailing l = l := by
    cases hrev : l.reverse with
    | nil =>
      have : l = [] := by simpa using congrArg List.reverse hrev
      subst this
      rfl
    | cons c cs =>
      have hc : pyIsSpace c = false := by
        apply hlast c
        rw [← List.head?_reverse, hrev]
        simp
      show (l.reverse.dropWhile pyIsSpace).reverse = l
      rw [hrev, List.dropWhile_cons, if_neg (by simp [hc]), ← hrev,
        List.reverse_reverse]
  rw [pyStrip, h1, h2]

/-- C9: whitespace normalization — collapsing whitespace runs to single
spaces and trimming the ends — is idempotent. -/
theorem normWs_idempotent (t : Str) : normWs (normWs t) = normWs t := by
  have hchars : ∀ c ∈ normWs t, pyIsSpace c = true → c = ' ' := by
    intro c hc hsp
    exact collapseWsAux_space_chars t false c (mem_of_mem_pyStrip hc) hsp
  have hchain : List.Chain'
      (fun a c => pyIsSpace a = false ∨ pyIsSpace c = false) (normWs t) := by
    have hy := collapseWsAux_chain t false
    have hsuf : stripLeading (collapseWs t) <:+ collapseWs t :=
      (collapseWs t).dropWhile_suffix pyIsSpace
    have hmid := hy.suffix hsuf
    obtain ⟨u, hu⟩ := stripTrailing_starts (stripLeading (collapseWs t))
    have hfull : List.Chain'
        (fun a c => pyIsSpace a = false ∨ pyIsSpace c = false)
        (normWs t ++ u) := by
      have hu2 : normWs t ++ u = stripLeading (collapseWs t) := hu
      rw [hu2]
      exact hmid
    exact (List.chain'_append.mp hfull).1
  have hfix1 : collapseWs (normWs t) = normWs t :=
    collapseWsAux_fix (normWs t) false hchars hchain
      (fun hcon => absurd hcon (by simp))
  have hfix2 : pyStrip (normWs t) = normWs t :=
    pyStrip_fix (normWs t) (fun d hd => pyStrip_head_false _ d hd)
      (fun d hd => pyStrip_last_false _ d hd)
  show pyStrip (collapseWs (normWs t)) = normWs t
  rw [hfix1, hfix2]

end Sindhi
